import Mathlib

/-!
Shallow embedding of `src/python/mxnet/symbol/op.py`
(`_make_atomic_symbol_function` and the callables it synthesizes).

The generator builds, for each registered operator, either a
variadic-positional-node callable (when one declared argument has a
node-array type tag) or a keyword-only callable.  We embed the runtime
behaviour of the generated code directly, parameterized by the
classification result, since the generated source text is a pure
function of that classification.
-/

namespace MxSymbolOp

/-- Python runtime values relevant to the synthesized callables:
`SymbolBase` node references, strings, ints, the `_Null` sentinel,
`None`, and string-valued attribute dicts (as passed for `attr`). -/
inductive PValue where
  | symbol (id : Nat)
  | str (s : String)
  | int (n : Int)
  | vNull
  | vNone
  | dict (entries : List (String × String))
deriving DecidableEq, Repr

/-- `isinstance(v, SymbolBase)` test used by the generated code. -/
def PValue.isSymbol : PValue → Bool
  | .symbol _ => true
  | _ => false

/-- Python `str(v)` for the values that can reach an error message.
(The reprs of `_Null`, dicts and symbols are external details; only the
scalar cases are exercised by the generated assertions.) -/
def pyStr : PValue → String
  | .symbol i => "<Symbol " ++ toString i ++ ">"
  | .str s => s
  | .int n => toString n
  | .vNull => "<_Null>"
  | .vNone => "None"
  | .dict _ => "<dict>"

/-- Error classes the call-time code can raise.  The generated code only
raises `AssertionError` (via `assert`); `typeError` is included so that
statements about the Python error class are expressible. -/
inductive PyError where
  | assertionError (msg : String)
  | typeError (msg : String)
deriving DecidableEq, Repr

def PyError.isTypeError : PyError → Bool
  | .typeError _ => true
  | _ => false

instance {ε α : Type} [DecidableEq ε] [DecidableEq α] : DecidableEq (Except ε α) :=
  fun a b =>
    match a, b with
    | .error e1, .error e2 =>
      if h : e1 = e2 then isTrue (by rw [h])
      else isFalse (fun hh => h (Except.error.inj hh))
    | .ok x, .ok y =>
      if h : x = y then isTrue (by rw [h])
      else isFalse (fun hh => h (Except.ok.inj hh))
    | .error _, .ok _ => isFalse (fun hh => Except.noConfusion hh)
    | .ok _, .error _ => isFalse (fun hh => Except.noConfusion hh)

/-! ### String predicates

Python's `str.startswith` / `str.endswith` / `str.lower`, as structural
functions on the character lists so that the kernel can evaluate them. -/

def strHasHead : List Char → List Char → Bool
  | [], _ => true
  | _ :: _, [] => false
  | p :: ps, c :: cs => p == c && strHasHead ps cs

def strStartsWith (s p : String) : Bool := strHasHead p.data s.data

def strEndsWith (s p : String) : Bool := strHasHead p.data.reverse s.data.reverse

def strToLower (s : String) : String := String.mk (s.data.map Char.toLower)

/-! ### Python dict model

Insertion-ordered association lists with Python `dict` semantics:
setting an existing key replaces the value in place, a new key is
appended at the end; `pop` removes the key; iteration is in insertion
order.  (Python dicts never hold a duplicate key; on such lists the
first-occurrence operations below agree with dict behaviour.) -/

def alookup {α : Type} : List (String × α) → String → Option α
  | [], _ => none
  | p :: rest, k => if p.1 = k then some p.2 else alookup rest k

/-- `d[k] = v` -/
def aset {α : Type} : List (String × α) → String → α → List (String × α)
  | [], k, v => [(k, v)]
  | p :: rest, k, v => if p.1 = k then (k, v) :: rest else p :: aset rest k v

/-- `d.update(e)` -/
def aupdate {α : Type} (d e : List (String × α)) : List (String × α) :=
  e.foldl (fun acc p => aset acc p.1 p.2) d

/-- `d.pop(k, default)` without the default: the removed binding, if any,
and the remaining entries. -/
def apop {α : Type} : List (String × α) → String → Option α × List (String × α)
  | [], _ => (none, [])
  | p :: rest, k =>
    if p.1 = k then (some p.2, rest)
    else
      let r := apop rest k
      (r.1, p :: r.2)

abbrev PDict := List (String × PValue)
abbrev SDict := List (String × String)

/-- `k in d` -/
def dictMem (d : PDict) (k : String) : Bool :=
  (alookup d k).isSome

/-- `d.pop(k, None)`: the popped value (default `None`) and the remaining dict. -/
def dictPop (d : PDict) (k : String) : PValue × PDict :=
  ((apop d k).1.getD .vNone, (apop d k).2)

/-- Attribute entries become string-valued keyword entries when folded
into `kwargs` by `kwargs.update(AttrScope.current.get(attr))`. -/
def attrsToP (d : SDict) : PDict :=
  d.map (fun p => (p.1, PValue.str p.2))

/-- Modelled from the spec: `AttrScope.current.get(attr)` (attribute.py is
not under src/) — returns the ambient attributes merged with the explicit
override, the explicit override winning on key conflict.  A non-dict,
non-`None` override is outside the modelled behaviour and yields the
ambient attributes unchanged. -/
def attrScopeGet (ambient : SDict) (attr : PValue) : SDict :=
  match attr with
  | .dict d => aupdate ambient d
  | _ => ambient

/-! ### Argument classification (`op.py` lines 87-116) -/

/-- One introspected argument: `(name, type tag)`. -/
structure RawArg where
  name : String
  atype : String
deriving DecidableEq, Repr

/-- The loop state of the classification loop: `dtype_name`, `arr_name`,
the accumulated signature fragments and the two name lists. -/
structure ClassifyState where
  dtype_name : Option String := none
  arr_name : Option String := none
  ndsignature : List String := []
  signature : List String := []
  ndarg_names : List String := []
  kwarg_names : List String := []
deriving DecidableEq, Repr

/-- One iteration of the classification loop (`op.py` lines 93-110).
The `assert not arr_name` of the source becomes an `Except.error`. -/
def classifyStep (s : ClassifyState) (a : RawArg) : Except String ClassifyState :=
  if a.name = "dtype" then
    .ok { s with dtype_name := some a.name,
                 signature := s.signature ++ [a.name ++ "=_Null"] }
  else if strStartsWith a.atype "NDArray" || strStartsWith a.atype "Symbol" then
    if s.arr_name.isSome then
      .error "Op can only have one argument with variable size and it must be the last argument."
    else if strEndsWith a.atype "[]" then
      .ok { s with ndsignature := s.ndsignature ++ ["*" ++ a.name],
                   arr_name := some a.name }
    else
      .ok { s with ndsignature := s.ndsignature ++ [a.name ++ "=None"],
                   ndarg_names := s.ndarg_names ++ [a.name] }
  else
    .ok { s with signature := s.signature ++ [a.name ++ "=_Null"],
                 kwarg_names := s.kwarg_names ++ [a.name] }

def classifyList (s : ClassifyState) : List RawArg → Except String ClassifyState
  | [] => .ok s
  | a :: rest =>
    match classifyStep s a with
    | .error e => .error e
    | .ok s2 => classifyList s2 rest

/-- The whole classification loop, from the initial state. -/
def classify (args : List RawArg) : Except String ClassifyState :=
  classifyList {} args

/-- An argument the classification loop sends to its node-typed branch:
not named `dtype`, and the type tag starts with one of the two node-type
tag heads. -/
def argNodeTyped (a : RawArg) : Bool :=
  decide (a.name ≠ "dtype") && (strStartsWith a.atype "NDArray" || strStartsWith a.atype "Symbol")

/-- An argument the classification loop records as `arr_name`: node-typed
(and not named `dtype`) with the `[]` tag suffix. -/
def argArrTyped (a : RawArg) : Bool :=
  argNodeTyped a && strEndsWith a.atype "[]"

/-- Some node-typed argument occurs strictly after some node-array-typed
argument.  This is precisely when the classification loop's
`assert not arr_name` fires. -/
def nodeAfterArr : List RawArg → Bool
  | [] => false
  | a :: rest => (argArrTyped a && rest.any argNodeTyped) || nodeAfterArr rest

/-- An argument that is node-array-typed in the sense of the spec's
classification contract (tag on a node-type head with the array
suffix). -/
def specNodeArrayTyped (a : RawArg) : Bool :=
  (strStartsWith a.atype "NDArray" || strStartsWith a.atype "Symbol") && strEndsWith a.atype "[]"

/-- The failure condition asserted by the spec's classification
contract: more than one node-array-typed argument, or a node-array-typed
argument that is not the last in declaration order. -/
def specC2FailCond (args : List RawArg) : Bool :=
  decide (1 < args.countP specNodeArrayTyped) || args.dropLast.any specNodeArrayTyped

/-! ### Name Manager (modelled from the spec) -/

/-- Least-significant-first decimal digits, via structural fuel so that
the kernel can evaluate it (the outer fuel argument is always the number
itself, which bounds the digit count). -/
def digitsRevAux : Nat → Nat → List Nat
  | _, 0 => []
  | 0, _ + 1 => []
  | f + 1, n + 1 => (n + 1) % 10 :: digitsRevAux f ((n + 1) / 10)

def digitsRev (n : Nat) : List Nat := digitsRevAux n n

/-- Reconstructing a number from its least-significant-first digits. -/
def ofDigitsRev : List Nat → Nat
  | [] => 0
  | d :: rest => d + 10 * ofDigitsRev rest

/-- Decimal character list of a counter value (most significant digit
first, `0` rendered as the digit `0`). -/
def decimalChars (c : Nat) : List Char :=
  if c = 0 then [Nat.digitChar 0] else ((digitsRev c).map Nat.digitChar).reverse

def decimalStr (c : Nat) : String :=
  String.mk (decimalChars c)

/-- Modelled from the spec: the Name Manager (name.py is not under src/),
an ambient per-base-name counter producing unique, deterministic node
names: `get` returns the requested name when one is present, else the
hint followed by the hint's counter value, bumping that counter. -/
structure NameManager where
  counter : List (String × Nat)
deriving DecidableEq, Repr

def NameManager.lookupHint (nm : NameManager) (hint : String) : Nat :=
  (alookup nm.counter hint).getD 0

/-- `NameManager.current.get(name, hint)`: a present (non-empty string)
requested name is returned unchanged; otherwise a fresh disambiguated
name is generated from the hint and the per-hint counter is bumped. -/
def NameManager.get (nm : NameManager) (nameV : PValue) (hint : String) :
    String × NameManager :=
  match nameV with
  | .str s =>
    if s = "" then
      (hint ++ decimalStr (nm.lookupHint hint),
       ⟨aset nm.counter hint (nm.lookupHint hint + 1)⟩)
    else (s, nm)
  | _ =>
    (hint ++ decimalStr (nm.lookupHint hint),
     ⟨aset nm.counter hint (nm.lookupHint hint + 1)⟩)

/-! ### The FFI request handed to `_symbol_creator` -/

/-- The argument tuple of the final
`_symbol_creator(handle, sym_args_or_None, sym_kwargs, keys, vals, name)`
call.  `keys` entries are Python strings (keyword names); `vals` entries
are the Python values appended by the generated code (stringification,
if any, happens inside the creation primitive, which is outside this
core). -/
structure FFIRequest where
  handle : Nat
  posNodes : Option (List PValue)
  symKwargs : PDict
  keys : List String
  vals : List PValue
  name : String
deriving DecidableEq, Repr

/-- The derived signature captured by a synthesized callable's closure. -/
structure OpSignature where
  handle : Nat
  funcName : String
  arr_name : Option String
  dtype_name : Option String
  ndarg_names : List String
  kwarg_names : List String
  key_var_num_args : String
deriving DecidableEq, Repr

/-- Classification of a whole declared-argument list into the signature
captured by the closure (the loop of `op.py` lines 87-110 followed by
the fields the code templates close over). -/
def makeSignature (handle : Nat) (funcName : String) (key_var_num_args : String)
    (args : List RawArg) : Except String OpSignature :=
  (classify args).map fun s =>
    ⟨handle, funcName, s.arr_name, s.dtype_name, s.ndarg_names, s.kwarg_names,
     key_var_num_args⟩

/-- Modelled from the spec: `_numpy.dtype(v).name` (numpy is external) —
coerces a dtype value to its canonical type-name string; canonical
type-name strings map to themselves, and the claims below do not depend
on the behaviour elsewhere. -/
def npDtypeName (v : PValue) : PValue :=
  match v with
  | .str s => .str s
  | v => v

/-! ### The variadic-node convention (`op.py` lines 119-158) -/

/-- The positional-argument loop: every positional value must be a
`SymbolBase`, otherwise `assert` fires naming the offending value; the
accepted values are collected in order into `sym_args`. -/
def checkPositional : List PValue → Except PyError (List PValue)
  | [] => .ok []
  | v :: rest =>
    if v.isSymbol then
      match checkPositional rest with
      | .error e => .error e
      | .ok tl => .ok (v :: tl)
    else
      .error (.assertionError
        ("Positional arguments must be Symbol instances, but got " ++ pyStr v))

/-- The keyword partition loop (`for k, v in kwargs.items()`): node
references go to `sym_kwargs`, everything else is appended in arrival
order to the parallel `keys`/`vals` lists. -/
def partitionLoop : PDict → PDict → List String → List PValue →
    PDict × List String × List PValue
  | [], sym_kwargs, keys, vals => (sym_kwargs, keys, vals)
  | (k, v) :: rest, sym_kwargs, keys, vals =>
    if v.isSymbol then partitionLoop rest (aset sym_kwargs k v) keys vals
    else partitionLoop rest sym_kwargs (keys ++ [k]) (vals ++ [v])

def partitionKwargs (kw : PDict) : PDict × List String × List PValue :=
  partitionLoop kw [] [] []

/-- `kwargs` after the dtype coercion of the variadic template
(`if 'dtype' in kwargs: kwargs['dtype'] = _numpy.dtype(...).name`),
which is generated only when the operator declares a dtype argument. -/
def variadicCoerceDtype (sig : OpSignature) (kwargs : PDict) : PDict :=
  if sig.dtype_name.isSome ∧ dictMem kwargs "dtype" then
    aset kwargs "dtype" (npDtypeName ((alookup kwargs "dtype").getD .vNone))
  else kwargs

/-- The `attr` value popped by `attr = kwargs.pop('attr', None)`. -/
def variadicAttrArg (sig : OpSignature) (kwargs : PDict) : PValue :=
  (dictPop (variadicCoerceDtype sig kwargs) "attr").1

/-- `kwargs` after the attr pop and the
`kwargs.update(AttrScope.current.get(attr))` merge. -/
def variadicMergedKwargs (sig : OpSignature) (ambient : SDict) (kwargs : PDict) : PDict :=
  aupdate (dictPop (variadicCoerceDtype sig kwargs) "attr").2
    (attrsToP (attrScopeGet ambient (variadicAttrArg sig kwargs)))

/-- The `name` value popped by `name = kwargs.pop('name', None)` (after
the attribute merge). -/
def variadicNameArg (sig : OpSignature) (ambient : SDict) (kwargs : PDict) : PValue :=
  (dictPop (variadicMergedKwargs sig ambient kwargs) "name").1

/-- `kwargs` as seen by the partition loop and the key-variadic
membership test: after the dtype coercion, the attribute merge, and the
`attr`/`name`/`out` pops. -/
def variadicFinalKwargs (sig : OpSignature) (ambient : SDict) (kwargs : PDict) : PDict :=
  (dictPop ((dictPop (variadicMergedKwargs sig ambient kwargs) "name").2) "out").2

/-- The whole body of a synthesized variadic-convention callable
(`op.py` lines 120-158), ending in the `_symbol_creator` request.  The
`NameManager.get` call is performed on the popped `name` value exactly
once; it commutes with the later pops and the partition (it touches only
the name-manager state), so it is applied after them here. -/
def variadicCall (sig : OpSignature) (ambient : SDict) (posArgs : List PValue)
    (kwargs : PDict) (nm : NameManager) : Except PyError (FFIRequest × NameManager) :=
  match checkPositional posArgs with
  | .error e => .error e
  | .ok sym_args =>
    let kw := variadicFinalKwargs sig ambient kwargs
    let part := partitionKwargs kw
    let kv :=
      if sig.key_var_num_args ≠ "" ∧ ¬ dictMem kw sig.key_var_num_args then
        (part.2.1 ++ [sig.key_var_num_args],
         part.2.2 ++ [PValue.int (sym_args.length + part.1.length)])
      else part.2
    let resolved := NameManager.get nm (variadicNameArg sig ambient kwargs) (strToLower sig.funcName)
    .ok (⟨sig.handle, some sym_args, part.1, kv.1, kv.2, resolved.1⟩, resolved.2)

/-! ### The keyword-only convention (`op.py` lines 160-196) -/

/-- The declared-node-argument blocks (`op.py` lines 174-179): each
non-`None` declared node parameter must be a `SymbolBase` (assert naming
the parameter and the value) and is inserted into `sym_kwargs` under its
declared name. -/
def processNdargs : List (String × PValue) → PDict → Except PyError PDict
  | [], sym_kwargs => .ok sym_kwargs
  | (n, v) :: rest, sym_kwargs =>
    if v = .vNone then processNdargs rest sym_kwargs
    else if v.isSymbol then processNdargs rest (aset sym_kwargs n v)
    else
      .error (.assertionError
        ("Argument " ++ n ++ " must be Symbol instances, but got " ++ pyStr v))

/-- The declared-scalar blocks (`op.py` lines 181-185): each declared
plain-scalar parameter whose value is not the `_Null` sentinel appends
`(name, value)` to `keys`/`vals`, in declaration order. -/
def appendScalars : List (String × PValue) → List String → List PValue →
    List String × List PValue
  | [], keys, vals => (keys, vals)
  | (n, v) :: rest, keys, vals =>
    if v = .vNull then appendScalars rest keys vals
    else appendScalars rest (keys ++ [n]) (vals ++ [v])

/-- `kwargs` after the `kwargs.update(AttrScope.current.get(attr))`
merge of the keyword-only template (`op.py` line 162). -/
def kwonlyMergedKwargs (ambient : SDict) (attrV : PValue) (kwargs : PDict) : PDict :=
  aupdate kwargs (attrsToP (attrScopeGet ambient attrV))

/-- The whole body of a synthesized keyword-only callable (`op.py`
lines 160-196).  `ndVals` and `scalarVals` are the values bound to the
declared node / plain-scalar parameters (in declaration order, defaults
`None` / `_Null`), `dtypeVal` the declared dtype parameter (when the
operator declares one), and `kwargs` the open keyword tail.  The
reserved `out` parameter is bound but never read by the generated code,
so it does not appear here. -/
def kwonlyCall (sig : OpSignature) (ambient : SDict)
    (ndVals : List PValue) (scalarVals : List PValue) (dtypeVal : PValue)
    (nameV : PValue) (attrV : PValue) (kwargs : PDict) (nm : NameManager) :
    Except PyError (FFIRequest × NameManager) :=
  let kw := kwonlyMergedKwargs ambient attrV kwargs
  let part := partitionKwargs kw
  match processNdargs (sig.ndarg_names.zip ndVals) part.1 with
  | .error e => .error e
  | .ok sym_kwargs =>
    let scal := appendScalars (sig.kwarg_names.zip scalarVals) part.2.1 part.2.2
    let kv :=
      if sig.dtype_name.isSome ∧ dtypeVal ≠ .vNull then
        (scal.1 ++ [sig.dtype_name.getD "dtype"], scal.2 ++ [npDtypeName dtypeVal])
      else scal
    let resolved := NameManager.get nm nameV (strToLower sig.funcName)
    .ok (⟨sig.handle, none, sym_kwargs, kv.1, kv.2, resolved.1⟩, resolved.2)

/-! ### Association-list lemmas -/

theorem alookup_aset_self {α : Type} (d : List (String × α)) (k : String) (v : α) :
    alookup (aset d k v) k = some v := by
  induction d with
  | nil => simp [aset, alookup]
  | cons p rest ih =>
    by_cases h : p.1 = k
    · simp [aset, h, alookup]
    · simp [aset, h, alookup, ih]

theorem alookup_aset_other {α : Type} (d : List (String × α)) (k k2 : String) (v : α)
    (h : k2 ≠ k) : alookup (aset d k v) k2 = alookup d k2 := by
  induction d with
  | nil =>
    simp only [aset, alookup, if_neg (fun hh : k = k2 => h hh.symm)]
  | cons p rest ih =>
    by_cases hp : p.1 = k
    · simp only [aset, if_pos hp, alookup, if_neg (fun hh : k = k2 => h hh.symm), hp]
    · simp only [aset, if_neg hp, alookup, ih]

theorem aupdate_cons {α : Type} (d : List (String × α)) (p : String × α)
    (e : List (String × α)) : aupdate d (p :: e) = aupdate (aset d p.1 p.2) e := rfl

theorem alookup_aupdate_of_not_mem {α : Type} (d e : List (String × α)) (k : String)
    (h : ∀ p ∈ e, p.1 ≠ k) : alookup (aupdate d e) k = alookup d k := by
  induction e generalizing d with
  | nil => rfl
  | cons p e ih =>
    rw [aupdate_cons, ih _ (fun q hq => h q (List.mem_cons_of_mem _ hq))]
    exact alookup_aset_other _ _ _ _ (fun hh => h p (List.mem_cons_self _ _) hh.symm)

theorem alookup_aupdate_of_mem {α : Type} (d e : List (String × α)) (k : String) (v : α)
    (hnd : (e.map Prod.fst).Nodup) (hm : (k, v) ∈ e) :
    alookup (aupdate d e) k = some v := by
  induction e generalizing d with
  | nil => cases hm
  | cons p e ih =>
    rw [aupdate_cons]
    rcases List.mem_cons.mp hm with heq | hmem
    · subst heq
      rw [alookup_aupdate_of_not_mem]
      · exact alookup_aset_self _ _ _
      · intro q hq hqk
        have : q.1 ∈ e.map Prod.fst := List.mem_map_of_mem _ hq
        rw [hqk] at this
        exact (List.nodup_cons.mp hnd).1 this
    · exact ih _ (List.nodup_cons.mp hnd).2 hmem

theorem alookup_mem {α : Type} (d : List (String × α)) (k : String) (v : α)
    (h : alookup d k = some v) : (k, v) ∈ d := by
  induction d with
  | nil => cases h
  | cons p rest ih =>
    by_cases hp : p.1 = k
    · simp only [alookup, if_pos hp] at h
      have : p = (k, v) := by
        obtain ⟨p1, p2⟩ := p
        simp only at hp
        simp only [Option.some.injEq] at h
        simp [hp, h]
      rw [← this]
      exact List.mem_cons_self _ _
    · simp only [alookup, if_neg hp] at h
      exact List.mem_cons_of_mem _ (ih h)

theorem apop_fst {α : Type} (d : List (String × α)) (k : String) :
    (apop d k).1 = alookup d k := by
  induction d with
  | nil => rfl
  | cons p rest ih =>
    by_cases hp : p.1 = k
    · simp [apop, alookup, hp]
    · simp [apop, alookup, hp, ih]

theorem alookup_apop_other {α : Type} (d : List (String × α)) (k k2 : String)
    (h : k2 ≠ k) : alookup (apop d k).2 k2 = alookup d k2 := by
  induction d with
  | nil => rfl
  | cons p rest ih =>
    by_cases hp : p.1 = k
    · rw [show apop (p :: rest) k = (some p.2, rest) by simp [apop, hp]]
      simp only [alookup, hp, if_neg (fun hh : k = k2 => h hh.symm)]
    · simp only [apop, if_neg hp, alookup, ih]

/-! ### Partition-loop lemmas -/

theorem partitionLoop_acc (kw : PDict) : ∀ (sk : PDict) (ks : List String)
    (vs : List PValue),
    (partitionLoop kw sk ks vs).2.1 = ks ++ (partitionLoop kw [] [] []).2.1 ∧
    (partitionLoop kw sk ks vs).2.2 = vs ++ (partitionLoop kw [] [] []).2.2 := by
  induction kw with
  | nil => intro sk ks vs; simp [partitionLoop]
  | cons p rest ih =>
    intro sk ks vs
    obtain ⟨k, v⟩ := p
    by_cases hv : v.isSymbol
    · simp only [partitionLoop, if_pos hv]
      constructor
      · rw [(ih (aset sk k v) ks vs).1, (ih (aset [] k v) [] []).1]
        simp
      · rw [(ih (aset sk k v) ks vs).2, (ih (aset [] k v) [] []).2]
        simp
    · simp only [partitionLoop, if_neg hv]
      constructor
      · rw [(ih sk (ks ++ [k]) (vs ++ [v])).1, (ih [] ([] ++ [k]) ([] ++ [v])).1,
          List.nil_append, List.append_assoc]
      · rw [(ih sk (ks ++ [k]) (vs ++ [v])).2, (ih [] ([] ++ [k]) ([] ++ [v])).2,
          List.nil_append, List.append_assoc]

theorem partitionLoop_length (kw : PDict) : ∀ (sk : PDict) (ks : List String)
    (vs : List PValue), ks.length = vs.length →
    (partitionLoop kw sk ks vs).2.1.length = (partitionLoop kw sk ks vs).2.2.length := by
  induction kw with
  | nil => intro sk ks vs h; exact h
  | cons p rest ih =>
    intro sk ks vs h
    obtain ⟨k, v⟩ := p
    by_cases hv : v.isSymbol
    · simp only [partitionLoop, if_pos hv]
      exact ih _ _ _ h
    · simp only [partitionLoop, if_neg hv]
      exact ih _ _ _ (by simp [h])

theorem partitionLoop_vals_not_symbol (kw : PDict) : ∀ (sk : PDict) (ks : List String)
    (vs : List PValue), (∀ v ∈ vs, v.isSymbol = false) →
    ∀ v ∈ (partitionLoop kw sk ks vs).2.2, v.isSymbol = false := by
  induction kw with
  | nil => intro sk ks vs h; exact h
  | cons p rest ih =>
    intro sk ks vs h
    obtain ⟨k, v⟩ := p
    by_cases hv : v.isSymbol
    · simp only [partitionLoop, if_pos hv]
      exact ih _ _ _ h
    · simp only [partitionLoop, if_neg hv]
      refine ih _ _ _ ?_
      intro u hu
      rcases List.mem_append.mp hu with hu | hu
      · exact h u hu
      · rw [List.mem_singleton.mp hu]
        simp only [Bool.not_eq_true] at hv
        exact hv

theorem partitionLoop_zip_mem (kw : PDict) : ∀ (sk : PDict) (ks : List String)
    (vs : List PValue) (k : String) (v : PValue), ks.length = vs.length →
    ((k, v) ∈ ks.zip vs ∨ ((k, v) ∈ kw ∧ v.isSymbol = false)) →
    (k, v) ∈ ((partitionLoop kw sk ks vs).2.1).zip ((partitionLoop kw sk ks vs).2.2) := by
  induction kw with
  | nil =>
    intro sk ks vs k v _ hm
    rcases hm with hm | hm
    · exact hm
    · cases hm.1
  | cons p rest ih =>
    intro sk ks vs k v hlen hm
    obtain ⟨k2, v2⟩ := p
    by_cases hv : v2.isSymbol
    · simp only [partitionLoop, if_pos hv]
      refine ih _ _ _ _ _ hlen ?_
      rcases hm with hm | hm
      · exact Or.inl hm
      · rcases List.mem_cons.mp hm.1 with heq | hmem
        · exfalso
          have : v = v2 := congrArg Prod.snd heq
          rw [this] at hm
          rw [hm.2] at hv
          exact Bool.false_ne_true hv
        · exact Or.inr ⟨hmem, hm.2⟩
    · simp only [partitionLoop, if_neg hv]
      refine ih _ _ _ _ _ (by simp [hlen]) ?_
      rcases hm with hm | hm
      · refine Or.inl ?_
        rw [List.zip_append hlen]
        exact List.mem_append.mpr (Or.inl hm)
      · rcases List.mem_cons.mp hm.1 with heq | hmem
        · refine Or.inl ?_
          rw [List.zip_append hlen, heq]
          simp
        · exact Or.inr ⟨hmem, hm.2⟩

/-! ### Declared-scalar block lemmas -/

theorem appendScalars_acc (ps : List (String × PValue)) : ∀ (ks : List String)
    (vs : List PValue),
    appendScalars ps ks vs =
      (ks ++ (appendScalars ps [] []).1, vs ++ (appendScalars ps [] []).2) := by
  induction ps with
  | nil => intro ks vs; simp [appendScalars]
  | cons p rest ih =>
    intro ks vs
    obtain ⟨n, v⟩ := p
    by_cases hv : v = .vNull
    · simp only [appendScalars, if_pos hv]
      exact ih ks vs
    · simp only [appendScalars, if_neg hv]
      rw [ih (ks ++ [n]) (vs ++ [v]), ih ([] ++ [n]) ([] ++ [v])]
      simp [List.append_assoc]

theorem appendScalars_length (ps : List (String × PValue)) : ∀ (ks : List String)
    (vs : List PValue), ks.length = vs.length →
    (appendScalars ps ks vs).1.length = (appendScalars ps ks vs).2.length := by
  induction ps with
  | nil => intro ks vs h; exact h
  | cons p rest ih =>
    intro ks vs h
    obtain ⟨n, v⟩ := p
    by_cases hv : v = .vNull
    · simp only [appendScalars, if_pos hv]
      exact ih _ _ h
    · simp only [appendScalars, if_neg hv]
      exact ih _ _ (by simp [h])

theorem appendScalars_vals_from (ps : List (String × PValue)) : ∀ (ks : List String)
    (vs : List PValue) (v : PValue), v ∈ (appendScalars ps ks vs).2 →
    v ∈ vs ∨ ∃ n, (n, v) ∈ ps := by
  induction ps with
  | nil => intro ks vs v h; exact Or.inl h
  | cons p rest ih =>
    intro ks vs v h
    obtain ⟨n, u⟩ := p
    by_cases hu : u = .vNull
    · simp only [appendScalars, if_pos hu] at h
      rcases ih _ _ _ h with h | ⟨n2, h⟩
      · exact Or.inl h
      · exact Or.inr ⟨n2, List.mem_cons_of_mem _ h⟩
    · simp only [appendScalars, if_neg hu] at h
      rcases ih _ _ _ h with h | ⟨n2, h⟩
      · rcases List.mem_append.mp h with h | h
        · exact Or.inl h
        · rw [List.mem_singleton.mp h]
          exact Or.inr ⟨n, List.mem_cons_self _ _⟩
      · exact Or.inr ⟨n2, List.mem_cons_of_mem _ h⟩

/-! ### Positional-check lemmas -/

theorem checkPositional_ok (l : List PValue) : ∀ r, checkPositional l = .ok r → r = l := by
  induction l with
  | nil => intro r h; cases h; rfl
  | cons v rest ih =>
    intro r h
    by_cases hv : v.isSymbol
    · simp only [checkPositional, if_pos hv] at h
      cases hr : checkPositional rest with
      | error e => rw [hr] at h; cases h
      | ok tl =>
        rw [hr] at h
        cases h
        rw [ih tl hr]
    · simp only [checkPositional, if_neg hv] at h
      cases h

theorem checkPositional_error_first (pre : List PValue) (v : PValue) (post : List PValue)
    (hpre : ∀ u ∈ pre, u.isSymbol = true) (hv : v.isSymbol = false) :
    checkPositional (pre ++ v :: post) =
      .error (.assertionError
        ("Positional arguments must be Symbol instances, but got " ++ pyStr v)) := by
  induction pre with
  | nil =>
    simp only [List.nil_append, checkPositional]
    rw [if_neg (by simp [hv])]
  | cons u pre ih =>
    have hu : u.isSymbol = true := hpre u (List.mem_cons_self _ _)
    simp only [List.cons_append, checkPositional, List.append_eq, if_pos hu,
      ih (fun w hw => hpre w (List.mem_cons_of_mem _ hw))]

/-! ### Decimal-rendering and Name-Manager lemmas -/

theorem digitsRevAux_round (f : Nat) : ∀ n, n ≤ f → ofDigitsRev (digitsRevAux f n) = n := by
  induction f with
  | zero =>
    intro n h
    interval_cases n
    rfl
  | succ f ih =>
    intro n h
    cases n with
    | zero => rfl
    | succ n =>
      have hdiv : (n + 1) / 10 ≤ f := by
        have h1 : (n + 1) / 10 < n + 1 := Nat.div_lt_self (Nat.succ_pos n) (by omega)
        omega
      simp only [digitsRevAux, ofDigitsRev, ih _ hdiv]
      exact Nat.mod_add_div (n + 1) 10

theorem digitsRev_round (n : Nat) : ofDigitsRev (digitsRev n) = n :=
  digitsRevAux_round n n (Nat.le_refl n)

theorem digitsRev_inj (m n : Nat) (h : digitsRev m = digitsRev n) : m = n := by
  rw [← digitsRev_round m, ← digitsRev_round n]
  exact congrArg ofDigitsRev h

theorem digitsRevAux_lt_ten (f : Nat) : ∀ n, ∀ d ∈ digitsRevAux f n, d < 10 := by
  induction f with
  | zero =>
    intro n d hd
    cases n <;> cases hd
  | succ f ih =>
    intro n d hd
    cases n with
    | zero => cases hd
    | succ n =>
      simp only [digitsRevAux] at hd
      rcases List.mem_cons.mp hd with heq | hmem
      · rw [heq]; exact Nat.mod_lt _ (by omega)
      · exact ih _ _ hmem

theorem digitChar_inj_lt : ∀ a < 10, ∀ b < 10, Nat.digitChar a = Nat.digitChar b → a = b := by
  decide

theorem map_digitChar_inj : ∀ (l1 l2 : List Nat), (∀ d ∈ l1, d < 10) → (∀ d ∈ l2, d < 10) →
    l1.map Nat.digitChar = l2.map Nat.digitChar → l1 = l2 := by
  intro l1
  induction l1 with
  | nil =>
    intro l2 _ _ h
    cases l2 with
    | nil => rfl
    | cons b l2 => cases h
  | cons a l1 ih =>
    intro l2 h1 h2 h
    cases l2 with
    | nil => cases h
    | cons b l2 =>
      simp only [List.map_cons, List.cons.injEq] at h
      have hab : a = b :=
        digitChar_inj_lt a (h1 a (List.mem_cons_self _ _)) b (h2 b (List.mem_cons_self _ _)) h.1
      rw [hab, ih l2 (fun d hd => h1 d (List.mem_cons_of_mem _ hd))
        (fun d hd => h2 d (List.mem_cons_of_mem _ hd)) h.2]

theorem decimalChars_inj (a b : Nat) (h : decimalChars a = decimalChars b) : a = b := by
  unfold decimalChars at h
  by_cases ha : a = 0 <;> by_cases hb : b = 0
  · rw [ha, hb]
  · exfalso
    rw [if_pos ha, if_neg hb] at h
    have h2 : ([0] : List Nat).map Nat.digitChar = ((digitsRev b).map Nat.digitChar).reverse := by
      simpa using h
    rw [← List.map_reverse] at h2
    have h3 : ([0] : List Nat) = (digitsRev b).reverse :=
      map_digitChar_inj _ _ (by simp) (fun d hd => digitsRevAux_lt_ten b b d
        (List.mem_reverse.mp hd)) h2
    have h4 : digitsRev b = [0] := by
      have := congrArg List.reverse h3
      simpa using this.symm
    have h5 : b = 0 := by
      have hr := digitsRev_round b
      rw [h4] at hr
      simpa [ofDigitsRev] using hr.symm
    exact hb h5
  · exfalso
    rw [if_neg ha, if_pos hb] at h
    have h2 : ((digitsRev a).map Nat.digitChar).reverse = ([0] : List Nat).map Nat.digitChar := by
      simpa using h
    rw [← List.map_reverse] at h2
    have h3 : (digitsRev a).reverse = ([0] : List Nat) :=
      map_digitChar_inj _ _ (fun d hd => digitsRevAux_lt_ten a a d
        (List.mem_reverse.mp hd)) (by simp) h2
    have h4 : digitsRev a = [0] := by
      have := congrArg List.reverse h3
      simpa using this
    have h5 : a = 0 := by
      have hr := digitsRev_round a
      rw [h4] at hr
      simpa [ofDigitsRev] using hr.symm
    exact ha h5
  · rw [if_neg ha, if_neg hb] at h
    have h2 := congrArg List.reverse h
    simp only [List.reverse_reverse] at h2
    exact digitsRev_inj a b (map_digitChar_inj _ _
      (fun d hd => digitsRevAux_lt_ten a a d hd)
      (fun d hd => digitsRevAux_lt_ten b b d hd) h2)

theorem append_decimalStr_ne (hint : String) (c1 c2 : Nat) (h : c1 ≠ c2) :
    hint ++ decimalStr c1 ≠ hint ++ decimalStr c2 := by
  intro he
  have hd := congrArg String.data he
  simp only [String.data_append] at hd
  have := List.append_cancel_left hd
  exact h (decimalChars_inj c1 c2 this)

/-- Two consecutive fresh resolutions from the Name Manager, for the
same hint, yield different names. -/
theorem nameManager_fresh_ne (nm : NameManager) (hint : String) :
    ((nm.get .vNone hint).2.get .vNone hint).1 ≠ (nm.get .vNone hint).1 := by
  simp only [NameManager.get, NameManager.lookupHint, alookup_aset_self, Option.getD_some]
  exact append_decimalStr_ne _ _ _ (by omega)

/-! ### Classification characterization -/

theorem nodeAfterArr_imp_any (l : List RawArg) (h : nodeAfterArr l = true) :
    l.any argNodeTyped = true := by
  induction l with
  | nil => cases h
  | cons a rest ih =>
    simp only [nodeAfterArr, Bool.or_eq_true, Bool.and_eq_true] at h
    rcases h with ⟨_, h⟩ | h
    · simp [List.any_cons, h]
    · simp [List.any_cons, ih h]

theorem classifyList_error_of_some (args : List RawArg) : ∀ (s : ClassifyState),
    s.arr_name.isSome = true →
    ((∃ e, classifyList s args = .error e) ↔ args.any argNodeTyped = true) := by
  induction args with
  | nil =>
    intro s _
    simp [classifyList]
  | cons a rest ih =>
    intro s hs
    by_cases hd : a.name = "dtype"
    · have hstep : classifyStep s a =
          .ok { s with dtype_name := some a.name,
                       signature := s.signature ++ [a.name ++ "=_Null"] } := by
        simp [classifyStep, hd]
      simp only [classifyList, hstep]
      rw [ih _ (by simpa using hs)]
      simp [List.any_cons, argNodeTyped, hd]
    · by_cases ht : (strStartsWith a.atype "NDArray" || strStartsWith a.atype "Symbol") = true
      · have hstep : classifyStep s a = .error
            "Op can only have one argument with variable size and it must be the last argument." := by
          simp [classifyStep, hd, ht, hs]
        simp only [classifyList, hstep]
        constructor
        · intro _
          simp [List.any_cons, argNodeTyped, hd, ht]
        · intro _
          exact ⟨_, rfl⟩
      · have hstep : classifyStep s a =
            .ok { s with signature := s.signature ++ [a.name ++ "=_Null"],
                         kwarg_names := s.kwarg_names ++ [a.name] } := by
          simp only [classifyStep, if_neg hd]
          rw [if_neg (by simpa using ht)]
        simp only [classifyList, hstep]
        rw [ih _ (by simpa using hs)]
        have hnt : argNodeTyped a = false := by
          simp [argNodeTyped, ht]
        simp [List.any_cons, hnt]

theorem classifyList_error_of_none (args : List RawArg) : ∀ (s : ClassifyState),
    s.arr_name = none →
    ((∃ e, classifyList s args = .error e) ↔ nodeAfterArr args = true) := by
  induction args with
  | nil =>
    intro s _
    simp [classifyList, nodeAfterArr]
  | cons a rest ih =>
    intro s hs
    by_cases hd : a.name = "dtype"
    · have hstep : classifyStep s a =
          .ok { s with dtype_name := some a.name,
                       signature := s.signature ++ [a.name ++ "=_Null"] } := by
        simp [classifyStep, hd]
      simp only [classifyList, hstep]
      rw [ih _ (by simpa using hs)]
      have : argArrTyped a = false := by
        simp [argArrTyped, argNodeTyped, hd]
      simp [nodeAfterArr, this]
    · by_cases ht : (strStartsWith a.atype "NDArray" || strStartsWith a.atype "Symbol") = true
      · by_cases he : strEndsWith a.atype "[]" = true
        · have hstep : classifyStep s a =
              .ok { s with ndsignature := s.ndsignature ++ ["*" ++ a.name],
                           arr_name := some a.name } := by
            simp [classifyStep, hd, ht, hs, he]
          simp only [classifyList, hstep]
          rw [classifyList_error_of_some rest _ (by simp)]
          have harr : argArrTyped a = true := by
            simp [argArrTyped, argNodeTyped, hd, ht, he]
          simp only [nodeAfterArr, harr, Bool.true_and, Bool.or_eq_true]
          constructor
          · intro h
            exact Or.inl h
          · intro h
            rcases h with h | h
            · exact h
            · exact nodeAfterArr_imp_any rest h
        · have hstep : classifyStep s a =
              .ok { s with ndsignature := s.ndsignature ++ [a.name ++ "=None"],
                           ndarg_names := s.ndarg_names ++ [a.name] } := by
            simp [classifyStep, hd, ht, hs, he]
          simp only [classifyList, hstep]
          rw [ih _ (by simpa using hs)]
          have : argArrTyped a = false := by
            simp [argArrTyped, he]
          simp [nodeAfterArr, this]
      · have hstep : classifyStep s a =
            .ok { s with signature := s.signature ++ [a.name ++ "=_Null"],
                         kwarg_names := s.kwarg_names ++ [a.name] } := by
          simp only [classifyStep, if_neg hd]
          rw [if_neg (by simpa using ht)]
        simp only [classifyList, hstep]
        rw [ih _ (by simpa using hs)]
        have : argArrTyped a = false := by
          simp [argArrTyped, argNodeTyped, ht]
        simp [nodeAfterArr, this]

/-! ## Claim theorems -/

/-- C2 (amended): classification fails with the synthesis-time error
exactly when some node-typed argument (not named `dtype`, type tag on a
node-type head) appears strictly after a node-array-typed argument.  In
particular a node-array-typed argument followed only by plain-scalar or
dtype arguments is accepted even though it is not last. -/
theorem classify_fails_iff_node_after_arr (args : List RawArg) :
    (∃ e, classify args = .error e) ↔ nodeAfterArr args = true :=
  classifyList_error_of_none args {} rfl

/-- C2 counterexample: a node-array-typed argument that is not last (it
is followed by a plain scalar) is accepted by the classification loop,
while the spec's contract demands a `SignatureError` there. -/
theorem classify_spec_contract_counterexample :
    specC2FailCond [⟨"data", "Symbol[]"⟩, ⟨"dim", "int"⟩] = true ∧
    classify [⟨"data", "Symbol[]"⟩, ⟨"dim", "int"⟩] =
      .ok ⟨none, some "data", ["*data"], ["dim=_Null"], [], ["dim"]⟩ :=
  ⟨by decide, by decide⟩

/-- C6: an argument literally named `dtype` is classified as the dtype
scalar regardless of its type tag — the name check precedes the
node-type-tag check, so the step leaves `arr_name`, `ndarg_names` and
`kwarg_names` untouched even for a node-prefixed or array-suffixed tag. -/
theorem dtype_name_check_precedes_type_check (s : ClassifyState) (a : RawArg)
    (h : a.name = "dtype") :
    classifyStep s a = .ok { s with dtype_name := some a.name,
                                    signature := s.signature ++ [a.name ++ "=_Null"] } := by
  simp [classifyStep, h]

theorem dtype_name_check_precedes_type_check_witness :
    classifyStep {} ⟨"dtype", "Symbol[]"⟩ =
      .ok ⟨some "dtype", none, [], ["dtype=_Null"], [], []⟩ :=
  dtype_name_check_precedes_type_check {} ⟨"dtype", "Symbol[]"⟩ rfl

/-- C5 (amended): in the variadic convention any non-node positional value
makes the call fail with an `AssertionError` (not a TypeError) whose
message names the first offending value, and the failure is the call's
result — no FFI request is ever built, so `_symbol_creator` is not
reached. -/
theorem variadic_positional_non_node_asserts (sig : OpSignature) (ambient : SDict)
    (pre : List PValue) (v : PValue) (post : List PValue) (kwargs : PDict)
    (nm : NameManager) (hpre : ∀ u ∈ pre, u.isSymbol = true) (hv : v.isSymbol = false) :
    variadicCall sig ambient (pre ++ v :: post) kwargs nm =
      .error (.assertionError
        ("Positional arguments must be Symbol instances, but got " ++ pyStr v)) := by
  unfold variadicCall
  rw [checkPositional_error_first pre v post hpre hv]

theorem variadic_positional_non_node_asserts_witness :
    variadicCall ⟨1, "Foo", some "data", none, [], [], ""⟩ [] ([] ++ .int 5 :: []) [] ⟨[]⟩ =
      .error (.assertionError
        ("Positional arguments must be Symbol instances, but got " ++ pyStr (.int 5))) :=
  variadic_positional_non_node_asserts ⟨1, "Foo", some "data", none, [], [], ""⟩ []
    [] (.int 5) [] [] ⟨[]⟩ (by simp) rfl

/-- C5 counterexample: the failure raised for a non-node positional value
is an `AssertionError`, which is not a TypeError-class error. -/
theorem variadic_positional_error_not_typeerror :
    variadicCall ⟨1, "Foo", some "data", none, [], [], ""⟩ [] [.int 5] [] ⟨[]⟩ =
      .error (.assertionError "Positional arguments must be Symbol instances, but got 5") ∧
    PyError.isTypeError
      (.assertionError "Positional arguments must be Symbol instances, but got 5") = false :=
  ⟨by decide, rfl⟩

/-- C1 (amended): a keyword value that is a node reference is kept out of
`keys`/`vals` whenever it flows through the keyword partition: in the
variadic convention no node reference ever reaches `vals`; in the
keyword-only convention any node reference found in `vals` can only have
been supplied as a declared plain-scalar parameter (or the declared dtype
parameter), never via the open keyword tail. -/
theorem node_values_in_vals_only_from_declared_scalars :
    (∀ (sig : OpSignature) (ambient : SDict) (posArgs : List PValue) (kwargs : PDict)
       (nm : NameManager) (req : FFIRequest) (nm2 : NameManager),
       variadicCall sig ambient posArgs kwargs nm = .ok (req, nm2) →
       ∀ v ∈ req.vals, v.isSymbol = false) ∧
    (∀ (sig : OpSignature) (ambient : SDict) (ndVals scalarVals : List PValue)
       (dtypeVal nameV attrV : PValue) (kwargs : PDict) (nm : NameManager)
       (req : FFIRequest) (nm2 : NameManager),
       kwonlyCall sig ambient ndVals scalarVals dtypeVal nameV attrV kwargs nm =
         .ok (req, nm2) →
       ∀ v ∈ req.vals, v.isSymbol = true → v ∈ scalarVals ∨ v = npDtypeName dtypeVal) := by
  constructor
  · intro sig ambient posArgs kwargs nm req nm2 h v hv
    unfold variadicCall at h
    cases hcp : checkPositional posArgs with
    | error e => rw [hcp] at h; cases h
    | ok sym_args =>
      rw [hcp] at h
      simp only at h
      have hreq := congrArg Prod.fst (Except.ok.inj h)
      simp only at hreq
      rw [← hreq] at hv
      simp only at hv
      set kw := variadicFinalKwargs sig ambient kwargs with hkw
      have hbase : ∀ u ∈ ([] : List PValue), u.isSymbol = false := by simp
      by_cases hc : sig.key_var_num_args ≠ "" ∧ ¬ dictMem kw sig.key_var_num_args
      · rw [if_pos hc] at hv
        rcases List.mem_append.mp hv with hm | hm
        · exact partitionLoop_vals_not_symbol kw [] [] [] hbase v hm
        · rw [List.mem_singleton.mp hm]; rfl
      · rw [if_neg hc] at hv
        exact partitionLoop_vals_not_symbol kw [] [] [] hbase v hv
  · intro sig ambient ndVals scalarVals dtypeVal nameV attrV kwargs nm req nm2 h v hv hsym
    unfold kwonlyCall at h
    dsimp only at h
    cases hnd : processNdargs (sig.ndarg_names.zip ndVals)
        (partitionKwargs (kwonlyMergedKwargs ambient attrV kwargs)).1 with
    | error e => rw [hnd] at h; cases h
    | ok sk2 =>
      rw [hnd] at h
      simp only at h
      have hreq := congrArg Prod.fst (Except.ok.inj h)
      simp only at hreq
      rw [← hreq] at hv
      simp only at hv
      set kw := kwonlyMergedKwargs ambient attrV kwargs with hkw
      have hbase : ∀ u ∈ ([] : List PValue), u.isSymbol = false := by simp
      have htail : ∀ u ∈ (partitionKwargs kw).2.2, u.isSymbol = false := by
        intro u hu
        exact partitionLoop_vals_not_symbol kw [] [] [] hbase u hu
      have hscal : v ∈ (appendScalars (sig.kwarg_names.zip scalarVals)
          (partitionKwargs kw).2.1 (partitionKwargs kw).2.2).2 →
          v ∈ scalarVals := by
        intro hm
        rcases appendScalars_vals_from _ _ _ _ hm with hm | ⟨n, hm⟩
        · rw [htail v hm] at hsym; cases hsym
        · exact (List.of_mem_zip hm).2
      by_cases hc : sig.dtype_name.isSome ∧ dtypeVal ≠ .vNull
      · rw [if_pos hc] at hv
        rcases List.mem_append.mp hv with hm | hm
        · exact Or.inl (hscal hm)
        · exact Or.inr (List.mem_singleton.mp hm)
      · rw [if_neg hc] at hv
        exact Or.inl (hscal hv)

theorem node_values_in_vals_only_from_declared_scalars_witness :
    PValue.isSymbol (.int 2) = false :=
  node_values_in_vals_only_from_declared_scalars.1
    ⟨3, "Concat", some "data", none, [], [], "num_args"⟩ [] [.symbol 0, .symbol 1] [] ⟨[]⟩
    ⟨3, some [.symbol 0, .symbol 1], [], ["num_args"], [.int 2], "concat0"⟩
    ⟨[("concat", 1)]⟩ (by decide) (.int 2) (by decide)

/-- C1 counterexample: a node reference supplied as the value of a
declared plain-scalar parameter in the keyword-only convention is placed
into `keys`/`vals`. -/
theorem node_value_reaches_vals_counterexample :
    kwonlyCall ⟨7, "Foo", none, none, [], ["axis"], ""⟩ [] [] [.symbol 0] .vNull .vNone
        .vNone [] ⟨[]⟩ =
      .ok (⟨7, none, [], ["axis"], [.symbol 0], "foo0"⟩, ⟨[("foo", 1)]⟩) ∧
    PValue.isSymbol (.symbol 0) = true :=
  ⟨by decide, rfl⟩

/-- C8: at the moment the creation primitive is invoked, the keys and
vals sequences have equal length — every append to one is paired with
exactly one append to the other — in both conventions. -/
theorem keys_vals_equal_length :
    (∀ (sig : OpSignature) (ambient : SDict) (posArgs : List PValue) (kwargs : PDict)
       (nm : NameManager) (req : FFIRequest) (nm2 : NameManager),
       variadicCall sig ambient posArgs kwargs nm = .ok (req, nm2) →
       req.keys.length = req.vals.length) ∧
    (∀ (sig : OpSignature) (ambient : SDict) (ndVals scalarVals : List PValue)
       (dtypeVal nameV attrV : PValue) (kwargs : PDict) (nm : NameManager)
       (req : FFIRequest) (nm2 : NameManager),
       kwonlyCall sig ambient ndVals scalarVals dtypeVal nameV attrV kwargs nm =
         .ok (req, nm2) →
       req.keys.length = req.vals.length) := by
  constructor
  · intro sig ambient posArgs kwargs nm req nm2 h
    unfold variadicCall at h
    cases hcp : checkPositional posArgs with
    | error e => rw [hcp] at h; cases h
    | ok sym_args =>
      rw [hcp] at h
      dsimp only at h
      have hreq := congrArg Prod.fst (Except.ok.inj h)
      dsimp only at hreq
      rw [← hreq]
      dsimp only
      set kw := variadicFinalKwargs sig ambient kwargs with hkw
      have hpart : (partitionKwargs kw).2.1.length = (partitionKwargs kw).2.2.length :=
        partitionLoop_length kw [] [] [] rfl
      by_cases hc : sig.key_var_num_args ≠ "" ∧ ¬ dictMem kw sig.key_var_num_args
      · rw [if_pos hc]
        simp [hpart]
      · rw [if_neg hc]
        exact hpart
  · intro sig ambient ndVals scalarVals dtypeVal nameV attrV kwargs nm req nm2 h
    unfold kwonlyCall at h
    dsimp only at h
    cases hnd : processNdargs (sig.ndarg_names.zip ndVals)
        (partitionKwargs (kwonlyMergedKwargs ambient attrV kwargs)).1 with
    | error e => rw [hnd] at h; cases h
    | ok sk2 =>
      rw [hnd] at h
      dsimp only at h
      have hreq := congrArg Prod.fst (Except.ok.inj h)
      dsimp only at hreq
      rw [← hreq]
      dsimp only
      set kw := kwonlyMergedKwargs ambient attrV kwargs with hkw
      have hpart : (partitionKwargs kw).2.1.length = (partitionKwargs kw).2.2.length :=
        partitionLoop_length kw [] [] [] rfl
      have hscal := appendScalars_length (sig.kwarg_names.zip scalarVals) _ _ hpart
      by_cases hc : sig.dtype_name.isSome ∧ dtypeVal ≠ PValue.vNull
      · rw [if_pos hc]
        simp [hscal]
      · rw [if_neg hc]
        exact hscal

theorem keys_vals_equal_length_witness :
    (["num_args"] : List String).length = ([PValue.int 2] : List PValue).length :=
  keys_vals_equal_length.1 ⟨3, "Concat", some "data", none, [], [], "num_args"⟩ []
    [.symbol 0, .symbol 1] [] ⟨[]⟩
    ⟨3, some [.symbol 0, .symbol 1], [], ["num_args"], [.int 2], "concat0"⟩
    ⟨[("concat", 1)]⟩ (by decide)

/-- C7: calling the same synthesized operator twice with identical
explicit arguments, under the same ambient Attribute Scope and with no
caller-supplied name, passes two distinct resolved names to the creation
primitive (the Name Manager bumps the per-hint counter) but identical
keys and vals sequences, in both conventions. -/
theorem repeat_call_same_keys_vals_distinct_names :
    (∀ (sig : OpSignature) (ambient : SDict) (posArgs : List PValue) (kwargs : PDict)
       (nm : NameManager) (r1 : FFIRequest) (nm1 : NameManager) (r2 : FFIRequest)
       (nm2 : NameManager),
       variadicNameArg sig ambient kwargs = .vNone →
       variadicCall sig ambient posArgs kwargs nm = .ok (r1, nm1) →
       variadicCall sig ambient posArgs kwargs nm1 = .ok (r2, nm2) →
       r1.keys = r2.keys ∧ r1.vals = r2.vals ∧ r1.name ≠ r2.name) ∧
    (∀ (sig : OpSignature) (ambient : SDict) (ndVals scalarVals : List PValue)
       (dtypeVal attrV : PValue) (kwargs : PDict) (nm : NameManager)
       (r1 : FFIRequest) (nm1 : NameManager) (r2 : FFIRequest) (nm2 : NameManager),
       kwonlyCall sig ambient ndVals scalarVals dtypeVal .vNone attrV kwargs nm =
         .ok (r1, nm1) →
       kwonlyCall sig ambient ndVals scalarVals dtypeVal .vNone attrV kwargs nm1 =
         .ok (r2, nm2) →
       r1.keys = r2.keys ∧ r1.vals = r2.vals ∧ r1.name ≠ r2.name) := by
  constructor
  · intro sig ambient posArgs kwargs nm r1 nm1 r2 nm2 hname h1 h2
    unfold variadicCall at h1 h2
    cases hcp : checkPositional posArgs with
    | error e => rw [hcp] at h1; cases h1
    | ok sym_args =>
      rw [hcp] at h1 h2
      dsimp only at h1 h2
      have e1 := Except.ok.inj h1
      rw [Prod.mk.injEq] at e1
      obtain ⟨hr1, hn1⟩ := e1
      subst hr1
      subst hn1
      have e2 := Except.ok.inj h2
      rw [Prod.mk.injEq] at e2
      obtain ⟨hr2, hn2⟩ := e2
      subst hr2
      subst hn2
      refine ⟨rfl, rfl, ?_⟩
      dsimp only
      rw [hname]
      exact Ne.symm (nameManager_fresh_ne nm (strToLower sig.funcName))
  · intro sig ambient ndVals scalarVals dtypeVal attrV kwargs nm r1 nm1 r2 nm2 h1 h2
    unfold kwonlyCall at h1 h2
    dsimp only at h1 h2
    cases hnd : processNdargs (sig.ndarg_names.zip ndVals)
        (partitionKwargs (kwonlyMergedKwargs ambient attrV kwargs)).1 with
    | error e => rw [hnd] at h1; cases h1
    | ok sk2 =>
      rw [hnd] at h1 h2
      dsimp only at h1 h2
      have e1 := Except.ok.inj h1
      rw [Prod.mk.injEq] at e1
      obtain ⟨hr1, hn1⟩ := e1
      subst hr1
      subst hn1
      have e2 := Except.ok.inj h2
      rw [Prod.mk.injEq] at e2
      obtain ⟨hr2, hn2⟩ := e2
      subst hr2
      subst hn2
      refine ⟨rfl, rfl, ?_⟩
      dsimp only
      exact Ne.symm (nameManager_fresh_ne nm (strToLower sig.funcName))

theorem repeat_call_same_keys_vals_distinct_names_witness :
    (["num_args"] : List String) = ["num_args"] ∧
    ([PValue.int 1] : List PValue) = [PValue.int 1] ∧
    ("concat0" : String) ≠ "concat1" :=
  repeat_call_same_keys_vals_distinct_names.1
    ⟨3, "Concat", some "data", none, [], [], "num_args"⟩ [] [.symbol 0] [] ⟨[]⟩
    ⟨3, some [.symbol 0], [], ["num_args"], [.int 1], "concat0"⟩ ⟨[("concat", 1)]⟩
    ⟨3, some [.symbol 0], [], ["num_args"], [.int 1], "concat1"⟩ ⟨[("concat", 2)]⟩
    (by decide) (by decide) (by decide)

/-- C3 (amended): for a variadic-convention operator with a declared
`key_var_num_args`, a call appends `(key_var_num_args, n)` to keys/vals
— with `n` the count of positional nodes plus node-valued keywords as a
Python integer, stringified only inside the creation primitive — exactly
when the key is absent from the keyword mapping after the attribute
merge; when the key is present there (from the caller or the merged
attribute scope), no injection occurs and the present value is forwarded
unchanged through the partition. -/
theorem keyvar_injection_integer_count (sig : OpSignature) (ambient : SDict)
    (posArgs : List PValue) (kwargs : PDict) (nm : NameManager)
    (req : FFIRequest) (nm2 : NameManager)
    (hk : sig.key_var_num_args ≠ "")
    (h : variadicCall sig ambient posArgs kwargs nm = .ok (req, nm2)) :
    (dictMem (variadicFinalKwargs sig ambient kwargs) sig.key_var_num_args = false →
       req.keys = (partitionKwargs (variadicFinalKwargs sig ambient kwargs)).2.1 ++
           [sig.key_var_num_args] ∧
       req.vals = (partitionKwargs (variadicFinalKwargs sig ambient kwargs)).2.2 ++
           [.int (posArgs.length +
             (partitionKwargs (variadicFinalKwargs sig ambient kwargs)).1.length)]) ∧
    (∀ v, alookup (variadicFinalKwargs sig ambient kwargs) sig.key_var_num_args = some v →
       req.keys = (partitionKwargs (variadicFinalKwargs sig ambient kwargs)).2.1 ∧
       req.vals = (partitionKwargs (variadicFinalKwargs sig ambient kwargs)).2.2 ∧
       (v.isSymbol = false → (sig.key_var_num_args, v) ∈ req.keys.zip req.vals)) := by
  unfold variadicCall at h
  cases hcp : checkPositional posArgs with
  | error e => rw [hcp] at h; cases h
  | ok sym_args =>
    have hsym : sym_args = posArgs := checkPositional_ok posArgs sym_args hcp
    rw [hcp] at h
    dsimp only at h
    have hreq := congrArg Prod.fst (Except.ok.inj h)
    dsimp only at hreq
    subst hsym
    constructor
    · intro hmem
      have hc : sig.key_var_num_args ≠ "" ∧
          ¬ dictMem (variadicFinalKwargs sig ambient kwargs) sig.key_var_num_args :=
        ⟨hk, by simp [hmem]⟩
      rw [if_pos hc] at hreq
      rw [← hreq]
      exact ⟨rfl, rfl⟩
    · intro v hl
      have hmem : dictMem (variadicFinalKwargs sig ambient kwargs) sig.key_var_num_args
          = true := by
        simp [dictMem, hl]
      have hc : ¬ (sig.key_var_num_args ≠ "" ∧
          ¬ dictMem (variadicFinalKwargs sig ambient kwargs) sig.key_var_num_args) := by
        simp [hmem]
      rw [if_neg hc] at hreq
      rw [← hreq]
      refine ⟨rfl, rfl, ?_⟩
      intro hsf
      dsimp only
      exact partitionLoop_zip_mem _ [] [] [] _ _ rfl
        (Or.inr ⟨alookup_mem _ _ _ hl, hsf⟩)

theorem keyvar_injection_integer_count_witness :
    (["num_args"] : List String) = ["num_args"] ∧
    ([PValue.int 2] : List PValue) = [PValue.int 2] :=
  (keyvar_injection_integer_count ⟨3, "Concat", some "data", none, [], [], "num_args"⟩ []
    [.symbol 0, .symbol 1] [] ⟨[]⟩
    ⟨3, some [.symbol 0, .symbol 1], [], ["num_args"], [.int 2], "concat0"⟩
    ⟨[("concat", 1)]⟩ (by decide) (by decide)).1 (by decide)

/-- C3 counterexample: the injected count entry carries the Python
integer `2`, not the string `"2"` the spec's example demands. -/
theorem keyvar_injection_not_string_counterexample :
    variadicCall ⟨3, "Concat", some "data", none, [], [], "num_args"⟩ []
        [.symbol 0, .symbol 1] [] ⟨[]⟩ =
      .ok (⟨3, some [.symbol 0, .symbol 1], [], ["num_args"], [.int 2], "concat0"⟩,
           ⟨[("concat", 1)]⟩) ∧
    PValue.int 2 ≠ PValue.str "2" :=
  ⟨by decide, by decide⟩

/-- C9: the key-variadic count injection is suppressed not only by a
caller-supplied keyword of that name but also by a merged attribute of
that name: merged Attribute Scope entries are folded into the keyword
mapping before the membership test, so an attribute binding for
`key_var_num_args` is forwarded through the partition as a string value
and no count entry is appended. -/
theorem ambient_attr_suppresses_keyvar_injection (sig : OpSignature) (ambient : SDict)
    (posArgs : List PValue) (kwargs : PDict) (nm : NameManager) (req : FFIRequest)
    (nm2 : NameManager) (v : String)
    (hmerge : alookup (attrScopeGet ambient (variadicAttrArg sig kwargs))
        sig.key_var_num_args = some v)
    (hnodup : ((attrScopeGet ambient (variadicAttrArg sig kwargs)).map Prod.fst).Nodup)
    (hkname : sig.key_var_num_args ≠ "name") (hkout : sig.key_var_num_args ≠ "out")
    (h : variadicCall sig ambient posArgs kwargs nm = .ok (req, nm2)) :
    req.keys = (partitionKwargs (variadicFinalKwargs sig ambient kwargs)).2.1 ∧
    req.vals = (partitionKwargs (variadicFinalKwargs sig ambient kwargs)).2.2 ∧
    (sig.key_var_num_args, PValue.str v) ∈ req.keys.zip req.vals := by
  have hmem2 : (sig.key_var_num_args, PValue.str v) ∈
      attrsToP (attrScopeGet ambient (variadicAttrArg sig kwargs)) :=
    List.mem_map_of_mem _ (alookup_mem _ _ _ hmerge)
  have hnodup2 : ((attrsToP (attrScopeGet ambient (variadicAttrArg sig kwargs))).map
      Prod.fst).Nodup := by
    unfold attrsToP
    rw [List.map_map]
    exact hnodup
  have hM : alookup (variadicMergedKwargs sig ambient kwargs) sig.key_var_num_args
      = some (PValue.str v) := by
    unfold variadicMergedKwargs
    exact alookup_aupdate_of_mem _ _ _ _ hnodup2 hmem2
  have hfinal : alookup (variadicFinalKwargs sig ambient kwargs) sig.key_var_num_args
      = some (PValue.str v) := by
    unfold variadicFinalKwargs dictPop
    dsimp only
    rw [alookup_apop_other _ _ _ hkout, alookup_apop_other _ _ _ hkname]
    exact hM
  have hmemb : dictMem (variadicFinalKwargs sig ambient kwargs) sig.key_var_num_args
      = true := by
    simp [dictMem, hfinal]
  unfold variadicCall at h
  cases hcp : checkPositional posArgs with
  | error e => rw [hcp] at h; cases h
  | ok sym_args =>
    rw [hcp] at h
    dsimp only at h
    have hreq := congrArg Prod.fst (Except.ok.inj h)
    dsimp only at hreq
    have hc : ¬ (sig.key_var_num_args ≠ "" ∧
        ¬ dictMem (variadicFinalKwargs sig ambient kwargs) sig.key_var_num_args) := by
      simp [hmemb]
    rw [if_neg hc] at hreq
    rw [← hreq]
    refine ⟨rfl, rfl, ?_⟩
    dsimp only
    exact partitionLoop_zip_mem _ [] [] [] _ _ rfl
      (Or.inr ⟨alookup_mem _ _ _ hfinal, rfl⟩)

theorem ambient_attr_suppresses_keyvar_injection_witness :
    (["num_args"] : List String) = ["num_args"] ∧
    ([PValue.str "9"] : List PValue) = [PValue.str "9"] ∧
    ("num_args", PValue.str "9") ∈ [("num_args", PValue.str "9")] :=
  ambient_attr_suppresses_keyvar_injection
    ⟨3, "Concat", some "data", none, [], [], "num_args"⟩ [("num_args", "9")]
    [.symbol 0, .symbol 1] [] ⟨[]⟩
    ⟨3, some [.symbol 0, .symbol 1], [], ["num_args"], [.str "9"], "concat0"⟩
    ⟨[("concat", 1)]⟩ "9" (by decide) (by decide) (by decide) (by decide) (by decide)

/-- C10: a keyword-only call hands `None` to the creation primitive for
the positional-node slot, and its keys/vals are ordered: entries from the
open keyword tail (including merged ambient attributes) first, declared
plain scalars next in declaration order, and the declared dtype entry, if
present, last. -/
theorem kwonly_request_shape (sig : OpSignature) (ambient : SDict)
    (ndVals scalarVals : List PValue) (dtypeVal nameV attrV : PValue) (kwargs : PDict)
    (nm : NameManager) (req : FFIRequest) (nm2 : NameManager)
    (h : kwonlyCall sig ambient ndVals scalarVals dtypeVal nameV attrV kwargs nm =
      .ok (req, nm2)) :
    req.posNodes = none ∧
    req.keys = (partitionKwargs (kwonlyMergedKwargs ambient attrV kwargs)).2.1 ++
        ((appendScalars (sig.kwarg_names.zip scalarVals) [] []).1 ++
         (if sig.dtype_name.isSome ∧ dtypeVal ≠ PValue.vNull
          then [sig.dtype_name.getD "dtype"] else [])) ∧
    req.vals = (partitionKwargs (kwonlyMergedKwargs ambient attrV kwargs)).2.2 ++
        ((appendScalars (sig.kwarg_names.zip scalarVals) [] []).2 ++
         (if sig.dtype_name.isSome ∧ dtypeVal ≠ PValue.vNull
          then [npDtypeName dtypeVal] else [])) := by
  unfold kwonlyCall at h
  dsimp only at h
  cases hnd : processNdargs (sig.ndarg_names.zip ndVals)
      (partitionKwargs (kwonlyMergedKwargs ambient attrV kwargs)).1 with
  | error e => rw [hnd] at h; cases h
  | ok sk2 =>
    rw [hnd] at h
    dsimp only at h
    have hreq := congrArg Prod.fst (Except.ok.inj h)
    dsimp only at hreq
    rw [appendScalars_acc] at hreq
    by_cases hc : sig.dtype_name.isSome ∧ dtypeVal ≠ PValue.vNull
    · rw [if_pos hc] at hreq
      rw [← hreq]
      refine ⟨rfl, ?_, ?_⟩
      · dsimp only
        rw [if_pos hc, List.append_assoc]
      · dsimp only
        rw [if_pos hc, List.append_assoc]
    · rw [if_neg hc] at hreq
      rw [← hreq]
      refine ⟨rfl, ?_, ?_⟩
      · dsimp only
        rw [if_neg hc]
        simp
      · dsimp only
        rw [if_neg hc]
        simp

theorem kwonly_request_shape_witness :
    (none : Option (List PValue)) = none ∧
    (["extra", "ctx", "axis", "dtype"] : List String) =
      ["extra", "ctx"] ++ (["axis"] ++ ["dtype"]) ∧
    ([PValue.str "e", PValue.str "gpu", PValue.int 1, PValue.str "float32"] : List PValue) =
      [PValue.str "e", PValue.str "gpu"] ++ ([PValue.int 1] ++ [PValue.str "float32"]) :=
  kwonly_request_shape ⟨5, "Cast", none, some "dtype", [], ["axis"], ""⟩ [("ctx", "gpu")]
    [] [.int 1] (.str "float32") .vNone .vNone [("extra", .str "e")] ⟨[]⟩
    ⟨5, none, [], ["extra", "ctx", "axis", "dtype"],
     [.str "e", .str "gpu", .int 1, .str "float32"], "cast0"⟩
    ⟨[("cast", 1)]⟩ (by decide)

/-! ### Key-uniqueness lemmas for the attribute merge -/

theorem mem_aset_keys {α : Type} (d : List (String × α)) (k : String) (v : α)
    (x : String) (h : x ∈ (aset d k v).map Prod.fst) :
    x ∈ d.map Prod.fst ∨ x = k := by
  induction d with
  | nil =>
    simp only [aset, List.map_cons, List.map_nil] at h
    exact Or.inr (List.mem_singleton.mp h)
  | cons p rest ih =>
    by_cases hp : p.1 = k
    · simp only [aset, if_pos hp, List.map_cons] at h
      rcases List.mem_cons.mp h with h | h
      · exact Or.inr h
      · exact Or.inl (List.mem_cons.mpr (Or.inr h))
    · simp only [aset, if_neg hp, List.map_cons] at h
      rcases List.mem_cons.mp h with h | h
      · exact Or.inl (List.mem_cons.mpr (Or.inl h))
      · rcases ih h with h | h
        · exact Or.inl (List.mem_cons.mpr (Or.inr h))
        · exact Or.inr h

theorem aset_keys_nodup {α : Type} (d : List (String × α)) (k : String) (v : α)
    (h : (d.map Prod.fst).Nodup) : ((aset d k v).map Prod.fst).Nodup := by
  induction d with
  | nil => simp [aset]
  | cons p rest ih =>
    by_cases hp : p.1 = k
    · simp only [aset, if_pos hp, List.map_cons]
      simp only [List.map_cons] at h
      rw [← hp]
      exact h
    · simp only [aset, if_neg hp, List.map_cons]
      simp only [List.map_cons, List.nodup_cons] at h ⊢
      refine ⟨?_, ih h.2⟩
      intro hx
      rcases mem_aset_keys rest k v p.1 hx with hx | hx
      · exact h.1 hx
      · exact hp hx

theorem aupdate_keys_nodup {α : Type} (e d : List (String × α))
    (h : (d.map Prod.fst).Nodup) : ((aupdate d e).map Prod.fst).Nodup := by
  induction e generalizing d with
  | nil => exact h
  | cons p e ih =>
    rw [aupdate_cons]
    exact ih _ (aset_keys_nodup _ _ _ h)

theorem apop_keys_sublist {α : Type} (d : List (String × α)) (k : String) :
    ((apop d k).2.map Prod.fst).Sublist (d.map Prod.fst) := by
  induction d with
  | nil => simp [apop]
  | cons p rest ih =>
    by_cases hp : p.1 = k
    · simp only [apop, if_pos hp, List.map_cons]
      exact List.sublist_cons_self _ _
    · simp only [apop, if_neg hp, List.map_cons]
      exact List.Sublist.cons₂ _ ih

/-- The keys list the partition loop builds is exactly the keys of the
non-node entries of the keyword mapping, in order. -/
theorem partitionLoop_keys_filter (kw : PDict) : ∀ (sk : PDict) (ks : List String)
    (vs : List PValue),
    (partitionLoop kw sk ks vs).2.1 =
      ks ++ (kw.filter (fun p => !p.2.isSymbol)).map Prod.fst := by
  induction kw with
  | nil => intro sk ks vs; simp [partitionLoop]
  | cons p rest ih =>
    intro sk ks vs
    obtain ⟨k, v⟩ := p
    by_cases hv : v.isSymbol
    · simp only [partitionLoop, if_pos hv]
      rw [ih]
      simp [List.filter_cons, hv]
    · simp only [partitionLoop, if_neg hv]
      rw [ih]
      simp [List.filter_cons, hv]

/-- A key bound to a non-node value in a duplicate-free keyword mapping
occurs exactly once among the partitioned scalar keys. -/
theorem count_one_partition (kw : PDict) (k : String) (v : PValue)
    (hnd : (kw.map Prod.fst).Nodup) (hm : (k, v) ∈ kw) (hs : v.isSymbol = false) :
    ((partitionKwargs kw).2.1).count k = 1 := by
  have hkeys : (partitionKwargs kw).2.1 = (kw.filter (fun p => !p.2.isSymbol)).map Prod.fst := by
    have := partitionLoop_keys_filter kw [] [] []
    simpa using this
  rw [hkeys]
  have hle : ((kw.filter (fun p => !p.2.isSymbol)).map Prod.fst).count k ≤
      (kw.map Prod.fst).count k :=
    List.Sublist.count_le (List.Sublist.map _ (List.filter_sublist kw)) k
  have h1 : (kw.map Prod.fst).count k ≤ 1 := List.nodup_iff_count_le_one.mp hnd k
  have hmemf : (k, v) ∈ kw.filter (fun p => !p.2.isSymbol) :=
    List.mem_filter.mpr ⟨hm, by simp [hs]⟩
  have hmem : k ∈ (kw.filter (fun p => !p.2.isSymbol)).map Prod.fst :=
    List.mem_map_of_mem Prod.fst hmemf
  have hpos : 0 < ((kw.filter (fun p => !p.2.isSymbol)).map Prod.fst).count k :=
    List.count_pos_iff.mpr hmem
  omega

theorem appendScalars_keys_from (ps : List (String × PValue)) : ∀ (ks : List String)
    (vs : List PValue) (x : String), x ∈ (appendScalars ps ks vs).1 →
    x ∈ ks ∨ ∃ u, (x, u) ∈ ps := by
  induction ps with
  | nil => intro ks vs x h; exact Or.inl h
  | cons p rest ih =>
    intro ks vs x h
    obtain ⟨n, u⟩ := p
    by_cases hu : u = .vNull
    · simp only [appendScalars, if_pos hu] at h
      rcases ih _ _ _ h with h | ⟨u2, h⟩
      · exact Or.inl h
      · exact Or.inr ⟨u2, List.mem_cons_of_mem _ h⟩
    · simp only [appendScalars, if_neg hu] at h
      rcases ih _ _ _ h with h | ⟨u2, h⟩
      · rcases List.mem_append.mp h with h | h
        · exact Or.inl h
        · rw [List.mem_singleton.mp h]
          exact Or.inr ⟨u, List.mem_cons_self _ _⟩
      · exact Or.inr ⟨u2, List.mem_cons_of_mem _ h⟩

/-- The keyword mapping seen by the variadic partition loop keeps its
keys duplicate-free when the caller's keyword mapping is. -/
theorem variadicFinalKwargs_keys_nodup (sig : OpSignature) (ambient : SDict)
    (kwargs : PDict) (h : (kwargs.map Prod.fst).Nodup) :
    ((variadicFinalKwargs sig ambient kwargs).map Prod.fst).Nodup := by
  have h1 : ((variadicCoerceDtype sig kwargs).map Prod.fst).Nodup := by
    unfold variadicCoerceDtype
    by_cases hc : sig.dtype_name.isSome ∧ dictMem kwargs "dtype"
    · rw [if_pos hc]
      exact aset_keys_nodup _ _ _ h
    · rw [if_neg hc]
      exact h
  have h2 : ((variadicMergedKwargs sig ambient kwargs).map Prod.fst).Nodup := by
    unfold variadicMergedKwargs dictPop
    exact aupdate_keys_nodup _ _ (List.Nodup.sublist (apop_keys_sublist _ _) h1)
  unfold variadicFinalKwargs dictPop
  exact List.Nodup.sublist (apop_keys_sublist _ _)
    (List.Nodup.sublist (apop_keys_sublist _ _) h2)

/-- C4 (amended): the Attribute Scope merge gives the explicit `attr`
override priority over the ambient scope, and the merged result is folded
into the keyword mapping by dict update, so every name the merged
attributes bind — including a name the caller also supplied as a keyword
— reaches the creation primitive carrying the merged attribute value, as
exactly one keys/vals entry, in both conventions. -/
theorem attr_merge_explicit_wins_overwrites_caller :
    (∀ (ambient d : SDict) (k v : String), (d.map Prod.fst).Nodup →
       alookup d k = some v →
       alookup (attrScopeGet ambient (.dict d)) k = some v) ∧
    (∀ (sig : OpSignature) (ambient : SDict) (posArgs : List PValue) (kwargs : PDict)
       (nm : NameManager) (req : FFIRequest) (nm2 : NameManager) (k v : String),
       alookup (attrScopeGet ambient (variadicAttrArg sig kwargs)) k = some v →
       ((attrScopeGet ambient (variadicAttrArg sig kwargs)).map Prod.fst).Nodup →
       (kwargs.map Prod.fst).Nodup →
       k ≠ "name" → k ≠ "out" →
       variadicCall sig ambient posArgs kwargs nm = .ok (req, nm2) →
       (k, PValue.str v) ∈ req.keys.zip req.vals ∧ req.keys.count k = 1) ∧
    (∀ (sig : OpSignature) (ambient : SDict) (ndVals scalarVals : List PValue)
       (dtypeVal nameV attrV : PValue) (kwargs : PDict) (nm : NameManager)
       (req : FFIRequest) (nm2 : NameManager) (k v : String),
       alookup (attrScopeGet ambient attrV) k = some v →
       ((attrScopeGet ambient attrV).map Prod.fst).Nodup →
       (kwargs.map Prod.fst).Nodup →
       k ∉ sig.kwarg_names → sig.dtype_name ≠ some k →
       kwonlyCall sig ambient ndVals scalarVals dtypeVal nameV attrV kwargs nm =
         .ok (req, nm2) →
       (k, PValue.str v) ∈ req.keys.zip req.vals ∧ req.keys.count k = 1) := by
  refine ⟨?_, ?_, ?_⟩
  · intro ambient d k v hnd hl
    unfold attrScopeGet
    exact alookup_aupdate_of_mem _ _ _ _ hnd (alookup_mem _ _ _ hl)
  · intro sig ambient posArgs kwargs nm req nm2 k v hmerge hmnodup hknodup hkname hkout h
    have hmem2 : (k, PValue.str v) ∈
        attrsToP (attrScopeGet ambient (variadicAttrArg sig kwargs)) :=
      List.mem_map_of_mem _ (alookup_mem _ _ _ hmerge)
    have hnodup2 : ((attrsToP (attrScopeGet ambient (variadicAttrArg sig kwargs))).map
        Prod.fst).Nodup := by
      unfold attrsToP
      rw [List.map_map]
      exact hmnodup
    have hM : alookup (variadicMergedKwargs sig ambient kwargs) k = some (PValue.str v) := by
      unfold variadicMergedKwargs
      exact alookup_aupdate_of_mem _ _ _ _ hnodup2 hmem2
    have hfinal : alookup (variadicFinalKwargs sig ambient kwargs) k
        = some (PValue.str v) := by
      unfold variadicFinalKwargs dictPop
      dsimp only
      rw [alookup_apop_other _ _ _ hkout, alookup_apop_other _ _ _ hkname]
      exact hM
    have hfnodup := variadicFinalKwargs_keys_nodup sig ambient kwargs hknodup
    have hfmem : (k, PValue.str v) ∈ variadicFinalKwargs sig ambient kwargs :=
      alookup_mem _ _ _ hfinal
    have hcount : ((partitionKwargs (variadicFinalKwargs sig ambient kwargs)).2.1).count k
        = 1 := count_one_partition _ _ _ hfnodup hfmem rfl
    have hplen : (partitionKwargs (variadicFinalKwargs sig ambient kwargs)).2.1.length
        = (partitionKwargs (variadicFinalKwargs sig ambient kwargs)).2.2.length :=
      partitionLoop_length _ [] [] [] rfl
    have hzip : (k, PValue.str v) ∈
        ((partitionKwargs (variadicFinalKwargs sig ambient kwargs)).2.1).zip
        ((partitionKwargs (variadicFinalKwargs sig ambient kwargs)).2.2) :=
      partitionLoop_zip_mem _ [] [] [] _ _ rfl (Or.inr ⟨hfmem, rfl⟩)
    unfold variadicCall at h
    cases hcp : checkPositional posArgs with
    | error e => rw [hcp] at h; cases h
    | ok sym_args =>
      rw [hcp] at h
      dsimp only at h
      have hreq := congrArg Prod.fst (Except.ok.inj h)
      dsimp only at hreq
      by_cases hc : sig.key_var_num_args ≠ "" ∧
          ¬ dictMem (variadicFinalKwargs sig ambient kwargs) sig.key_var_num_args
      · have hkne : k ≠ sig.key_var_num_args := by
          intro hkk
          apply hc.2
          rw [← hkk]
          simp [dictMem, hfinal]
        rw [if_pos hc] at hreq
        rw [← hreq]
        dsimp only
        constructor
        · rw [List.zip_append hplen]
          exact List.mem_append.mpr (Or.inl hzip)
        · rw [List.count_append, hcount, List.count_singleton',
            if_neg (fun hh : sig.key_var_num_args = k => hkne hh.symm)]
      · rw [if_neg hc] at hreq
        rw [← hreq]
        dsimp only
        exact ⟨hzip, hcount⟩
  · intro sig ambient ndVals scalarVals dtypeVal nameV attrV kwargs nm req nm2 k v
      hmerge hmnodup hknodup hknotscal hknotdtype h
    have hmem2 : (k, PValue.str v) ∈ attrsToP (attrScopeGet ambient attrV) :=
      List.mem_map_of_mem _ (alookup_mem _ _ _ hmerge)
    have hnodup2 : ((attrsToP (attrScopeGet ambient attrV)).map Prod.fst).Nodup := by
      unfold attrsToP
      rw [List.map_map]
      exact hmnodup
    have hM : alookup (kwonlyMergedKwargs ambient attrV kwargs) k = some (PValue.str v) := by
      unfold kwonlyMergedKwargs
      exact alookup_aupdate_of_mem _ _ _ _ hnodup2 hmem2
    have hMnodup : ((kwonlyMergedKwargs ambient attrV kwargs).map Prod.fst).Nodup := by
      unfold kwonlyMergedKwargs
      exact aupdate_keys_nodup _ _ hknodup
    have hfmem : (k, PValue.str v) ∈ kwonlyMergedKwargs ambient attrV kwargs :=
      alookup_mem _ _ _ hM
    have hcount : ((partitionKwargs (kwonlyMergedKwargs ambient attrV kwargs)).2.1).count k
        = 1 := count_one_partition _ _ _ hMnodup hfmem rfl
    have hplen : (partitionKwargs (kwonlyMergedKwargs ambient attrV kwargs)).2.1.length
        = (partitionKwargs (kwonlyMergedKwargs ambient attrV kwargs)).2.2.length :=
      partitionLoop_length _ [] [] [] rfl
    have hzip : (k, PValue.str v) ∈
        ((partitionKwargs (kwonlyMergedKwargs ambient attrV kwargs)).2.1).zip
        ((partitionKwargs (kwonlyMergedKwargs ambient attrV kwargs)).2.2) :=
      partitionLoop_zip_mem _ [] [] [] _ _ rfl (Or.inr ⟨hfmem, rfl⟩)
    have hscal0 : ((appendScalars (sig.kwarg_names.zip scalarVals) [] []).1).count k
        = 0 := by
      rw [List.count_eq_zero]
      intro hmm
      rcases appendScalars_keys_from _ _ _ _ hmm with hx | ⟨u, hx⟩
      · cases hx
      · exact hknotscal ((List.of_mem_zip hx).1)
    have hslen : ((appendScalars (sig.kwarg_names.zip scalarVals) [] []).1).length
        = ((appendScalars (sig.kwarg_names.zip scalarVals) [] []).2).length :=
      appendScalars_length _ [] [] rfl
    unfold kwonlyCall at h
    dsimp only at h
    cases hnd : processNdargs (sig.ndarg_names.zip ndVals)
        (partitionKwargs (kwonlyMergedKwargs ambient attrV kwargs)).1 with
    | error e => rw [hnd] at h; cases h
    | ok sk2 =>
      rw [hnd] at h
      dsimp only at h
      have hreq := congrArg Prod.fst (Except.ok.inj h)
      dsimp only at hreq
      rw [appendScalars_acc] at hreq
      by_cases hc : sig.dtype_name.isSome ∧ dtypeVal ≠ PValue.vNull
      · have hdne : sig.dtype_name.getD "dtype" ≠ k := by
          intro hkk
          cases ho : sig.dtype_name with
          | none => rw [ho] at hc; simp at hc
          | some d =>
            apply hknotdtype
            rw [ho] at hkk
            simp only [Option.getD_some] at hkk
            rw [ho, hkk]
        rw [if_pos hc] at hreq
        rw [← hreq]
        dsimp only
        have hlen2 : ((partitionKwargs (kwonlyMergedKwargs ambient attrV kwargs)).2.1 ++
              (appendScalars (sig.kwarg_names.zip scalarVals) [] []).1).length
            = ((partitionKwargs (kwonlyMergedKwargs ambient attrV kwargs)).2.2 ++
              (appendScalars (sig.kwarg_names.zip scalarVals) [] []).2).length := by
          simp [hplen, hslen]
        constructor
        · rw [List.zip_append hlen2, List.zip_append hplen]
          exact List.mem_append.mpr (Or.inl (List.mem_append.mpr (Or.inl hzip)))
        · rw [List.count_append, List.count_append, hcount, hscal0,
            List.count_singleton']
          simp [hdne]
      · rw [if_neg hc] at hreq
        rw [← hreq]
        dsimp only
        constructor
        · rw [List.zip_append hplen]
          exact List.mem_append.mpr (Or.inl hzip)
        · rw [List.count_append, hcount, hscal0]

theorem attr_merge_explicit_wins_overwrites_caller_witness :
    ("ctx", PValue.str "cpu") ∈ [("ctx", PValue.str "cpu")] ∧
    (["ctx"] : List String).count "ctx" = 1 :=
  attr_merge_explicit_wins_overwrites_caller.2.1
    ⟨1, "Foo", some "data", none, [], [], ""⟩ [("ctx", "gpu")] []
    [("ctx", .str "mine"), ("attr", .dict [("ctx", "cpu")])] ⟨[]⟩
    ⟨1, some [], [], ["ctx"], [.str "cpu"], "foo0"⟩ ⟨[("foo", 1)]⟩ "ctx" "cpu"
    (by decide) (by decide) (by decide) (by decide) (by decide) (by decide)

/-- C4 counterexample: an ambient attribute overwrites a same-named
caller-supplied keyword — the caller set `ctx` to `"mine"`, yet the
request carries the ambient value `"gpu"`. -/
theorem ambient_attr_overwrites_caller_counterexample :
    variadicCall ⟨1, "Foo", some "data", none, [], [], ""⟩ [("ctx", "gpu")] []
        [("ctx", .str "mine")] ⟨[]⟩ =
      .ok (⟨1, some [], [], ["ctx"], [.str "gpu"], "foo0"⟩, ⟨[("foo", 1)]⟩) ∧
    PValue.str "gpu" ≠ PValue.str "mine" :=
  ⟨by decide, by decide⟩

end MxSymbolOp
